import Mathlib

/-!
# Content-mix feed server: embedding of `server.go` and `content.go`

The handler `App.ServeHTTP` reads `count` and `offset` from the query string,
then repeatedly calls `App.retrieveBatch`, which fetches one article per
configuration slot (with a single-level fallback) and writes the articles to the
response as a JSON array.

Modelling decisions, all visible in the definitions below:

* Go `int` values are `Int` (`strconv.Atoi` saturates at the 64-bit bounds); once
  `getURLParams` has clamped them to be non-negative they are used as `Nat`.
  `articleCount` never exceeds `count`, so no arithmetic overflows.
* A provider client may answer differently from call to call.  Every call made by
  the handler is told apart by its `Site` (batch number, slot index, primary or
  fallback), and a `Client` is a function of that site.
* The goroutines of one batch each write one `Response` to the channel of their
  slot and the join loop reads the channels in slot order, so a batch is the list
  of the `retrieveContent` results for `idx = offset .. len(Config)-1`.
* The response writer is an append-only buffer (as `httptest.ResponseRecorder`);
  `log.Println` calls do not touch the response and are left out.
* `json.Marshal` is library code: it is a parameter `marshal`, with `none` for
  the case `mErr != nil` (then `m` is `nil` and `Write` appends no bytes).
* The loop `for articleCount < count` may not terminate; `batchLoop` carries a
  fuel and answers `none` when the fuel runs out.
* `ContentClients` is taken to hold a client for every provider named by the
  configuration.
-/

namespace Feed

/-! ## content.go -/

/-- Provider represents the third party from which content is fetched
(`type Provider string`). -/
abbrev Provider := String

/-- A `time.Time`, reduced to the calendar year of the instant and its position
within that year. -/
structure Time where
  year : Int
  withinYear : Nat
deriving DecidableEq, Repr

/-- Article represents one piece of content fetched from a provider. -/
structure Article where
  ID : String
  Title : String
  Source : String
  Summary : String
  Link : String
  Expiry : Time
deriving DecidableEq, Repr

/-- One call of `GetContent` as issued by the handler: the batch (iteration of
the loop in `ServeHTTP`, from 0), the slot index, and whether it is the call to
the fallback provider. -/
structure Site where
  batch : Nat
  idx : Nat
  fallback : Bool
deriving DecidableEq, Repr

/-- The pair `([]*Article, error)` returned by `GetContent`; a nil pointer in
the slice is `none`, a nil error is `none`. -/
structure Fetched where
  content : List (Option Article)
  err : Option String
deriving DecidableEq, Repr

/-- Client represents a provider's client: `GetContent(userIP, count)`, at a
given call site. -/
abbrev Client := Site → String → Int → Fetched

/-- `SampleContentProvider.GetContent`: `count` articles of the provider, each
with a fresh id and the current time, and a nil error.  `rand` and `now` stand
for `rand.Int()` and `time.Now()`. -/
def SampleContentProvider (Source : Provider) (rand : Site → Nat → Nat)
    (now : Site → Time) : Client :=
  fun site _userIP count =>
    { content := (List.range count.toNat).map fun i =>
        some { ID := toString (rand site i), Title := "title", Source := Source,
               Summary := "", Link := "", Expiry := now site }
      err := none }

/-- `ErrProvider.GetContent`: no article and the error `error :(`. -/
def ErrProvider (_Source : Provider) : Client :=
  fun _site _userIP _count => { content := [], err := some "error :(" }

/-! ## Configuration -/

/-- Modelled from the spec: the declaration of the slot type `ContentConfig` is
not among the sources; `server.go` reads its fields `Type` (the primary provider
of the slot, here `Type_`) and `Fallback` (a `*Provider`, nil when the slot has
no fallback). -/
structure ContentConfig where
  Type_ : Provider
  Fallback : Option Provider
deriving DecidableEq, Repr

/-- Modelled from the spec: `ContentMix`, the ordered sequence of slots. -/
abbrev ContentMix := List ContentConfig

/-! ## strconv.Atoi -/

/-- The two errors of package `strconv`. -/
inductive NumError where
  | ErrSyntax
  | ErrRange
deriving DecidableEq, Repr

def maxUint64 : Nat := 18446744073709551615

def maxInt64 : Int := 9223372036854775807

def minInt64 : Int := -9223372036854775808

/-- The digit loop of `strconv.ParseUint(s, 10, 64)`: a byte that is not a
decimal digit is a syntax error with value 0; an overflow of 64 bits is a range
error with the largest value. A character outside ASCII is a run of bytes none
of which is a digit, so reading characters gives the same result. -/
def parseDigits : List Char → Nat → Nat × Option NumError
  | [], n => (n, none)
  | c :: cs, n =>
    if c.isDigit then
      if n ≥ maxUint64 / 10 + 1 then (maxUint64, some .ErrRange)
      else
        let n1 := n * 10 + (c.toNat - 48)
        if n1 > maxUint64 then (maxUint64, some .ErrRange)
        else parseDigits cs n1
    else (0, some .ErrSyntax)

/-- `strconv.ParseUint(s, 10, 64)`. -/
def ParseUint (s : List Char) : Nat × Option NumError :=
  if s = [] then (0, some .ErrSyntax) else parseDigits s 0

/-- `strconv.ParseInt(s, 10, 0)` on a 64-bit platform. -/
def ParseInt (s : List Char) : Int × Option NumError :=
  match s with
  | [] => (0, some .ErrSyntax)
  | c :: cs =>
    let neg := decide (c = '-')
    let s1 := if c = '+' ∨ c = '-' then cs else s
    let r := ParseUint s1
    if r.2 = some .ErrSyntax then (0, some .ErrSyntax)
    else if !neg && decide (r.1 ≥ 9223372036854775808) then (maxInt64, some .ErrRange)
    else if neg && decide (r.1 > 9223372036854775808) then (minInt64, some .ErrRange)
    else (if neg then -(r.1 : Int) else (r.1 : Int), none)

/-- `strconv.Atoi`. Its fast path for short inputs returns what `ParseInt`
returns. -/
def Atoi (s : String) : Int × Option NumError :=
  ParseInt s.data

/-! ## server.go -/

/-- An `error` value of the handler: one of `strconv`, or one made by
`errors.New`. -/
inductive GoError where
  | num (e : NumError)
  | new (msg : String)
deriving DecidableEq, Repr

/-- App represents the server's internal state. -/
structure App where
  ContentClients : Provider → Client
  Config : ContentMix

/-- Response represents a request response, wrapping the received content and
error. -/
structure Response where
  Content : List (Option Article)
  Error : Option String
deriving DecidableEq, Repr

/-- A recorded call `GetContent(userIP, count)` on the client of `provider`. -/
structure Call where
  provider : Provider
  userIP : String
  count : Int
deriving DecidableEq, Repr

/-- The function `getURLParams`, on the raw values of the query parameters
`count` and `offset` (the empty string when the parameter is missing). The
result is `(count, offset, err)`. -/
def getURLParams (countRaw offsetRaw : String) : Int × Int × Option GoError :=
  let c := Atoi countRaw
  let s1 : Int × Option GoError :=
    if c.1 < 0 then (0, some (.new "invalid count")) else (c.1, c.2.map .num)
  let o := Atoi offsetRaw
  -- `offset, err = strconv.Atoi(...)` assigns `err` again: `s1.2` is dropped
  let s2 : Int × Option GoError :=
    if o.1 < 0 then (0, some (.new "invalid offset")) else (o.1, o.2.map .num)
  (s1.1, s2.1, s2.2)

/-- The local variables of `ServeHTTP` that `retrieveBatch` updates, the
response, and two traces: the articles handed to `marshalAndWrite` and the
`GetContent` calls issued. -/
structure ServeState where
  articleCount : Nat
  addComma : Bool
  header : List (String × String)
  body : String
  emitted : List (Option Article)
  calls : List Call
deriving DecidableEq, Repr

/-- The function `retrieveContent`, for slot `cfg = a.Config[idx]` in batch
`batch`: the `Response` sent on the slot's channel and the calls made. -/
def retrieveContent (a : App) (batch idx : Nat) (cfg : ContentConfig) :
    Response × List Call :=
  let r := a.ContentClients cfg.Type_ ⟨batch, idx, false⟩ "Test" 1
  match r.err with
  | some _ =>
    match cfg.Fallback with
    | some fb =>
      let r2 := a.ContentClients fb ⟨batch, idx, true⟩ "Test" 1
      (⟨r2.content, r2.err⟩, [⟨cfg.Type_, "Test", 1⟩, ⟨fb, "Test", 1⟩])
    | none => (⟨[], some "no fallback found"⟩, [⟨cfg.Type_, "Test", 1⟩])
  | none => (⟨r.content, none⟩, [⟨cfg.Type_, "Test", 1⟩])

/-- How a call of `retrieveBatch` ends: it returns nil, it returns the error
`value error`, or `val[0]` in `marshalAndWrite` is out of range. -/
inductive BatchExit where
  | retNil
  | retErr
  | outOfRange
deriving DecidableEq, Repr

/-- The comma step of the join loop: `if *addComma { w.Write(",") }` followed by
`*addComma = true`. -/
def writeComma (st : ServeState) : ServeState :=
  { st with body := if st.addComma then st.body ++ "," else st.body, addComma := true }

/-- The function `marshalAndWrite` on a non-empty `val`, followed by
`*batchCount++`: the bytes of `json.Marshal(val[0])` are appended (no byte when
marshalling fails). -/
def marshalAndWrite (marshal : Option Article → Option String) (art : Option Article)
    (st : ServeState) : ServeState :=
  { st with body := st.body ++ (marshal art).getD "",
            emitted := st.emitted ++ [art],
            articleCount := st.articleCount + 1 }

/-- The second loop of `retrieveBatch`: the values read from the channels of the
slots `offset .. len(Config)-1`, in that order. `*batchCount` is the
`articleCount` of `ServeHTTP`. -/
def joinLoop (marshal : Option Article → Option String) (count : Nat) :
    List Response → ServeState → BatchExit × ServeState
  | [], st => (.retNil, st)
  | val :: rest, st =>
    match val.Error with
    | some _ => (.retErr, st)
    | none =>
      let st1 := writeComma st
      match val.Content with
      | [] => (.outOfRange, st1)
      | art :: _ =>
        let st2 := marshalAndWrite marshal art st1
        if st2.articleCount = count then (.retNil, st2)
        else joinLoop marshal count rest st2

/-- The slots visited by one batch, with their indices:
`for idx = offset; idx < len(a.Config); idx++`. -/
def batchSlots (a : App) (offset : Nat) : List (Nat × ContentConfig) :=
  (a.Config.enum).drop offset

/-- The function `retrieveBatch`: a goroutine per slot runs `retrieveContent`,
then the join loop consumes the results in slot order. Its last statement,
`offset = 0`, assigns the function's own parameter (passed by value) and is not
seen by `ServeHTTP`, so nothing of it appears in the result. -/
def retrieveBatch (a : App) (marshal : Option Article → Option String)
    (batch offset count : Nat) (st : ServeState) : BatchExit × ServeState :=
  let rs := (batchSlots a offset).map fun p => retrieveContent a batch p.1 p.2
  let st1 := { st with calls := st.calls ++ (rs.map Prod.snd).flatten }
  joinLoop marshal count (rs.map Prod.fst) st1

/-- How the handler ends. -/
inductive Exit where
  | returned
  | panicked
deriving DecidableEq, Repr

/-- The loop `for articleCount < count` of `ServeHTTP`; every round calls
`retrieveBatch` with the same `offset`. `batch` counts the rounds. `none`: the
fuel ran out before the loop was left. -/
def batchLoop (a : App) (marshal : Option Article → Option String)
    (offset count : Nat) : Nat → Nat → ServeState → Option (Exit × ServeState)
  | fuel, batch, st =>
    if st.articleCount < count then
      match fuel with
      | 0 => none
      | fuel + 1 =>
        match retrieveBatch a marshal batch offset count st with
        | (.retNil, st1) => batchLoop a marshal offset count fuel (batch + 1) st1
        | (.retErr, st1) => some (.returned, st1)
        | (.outOfRange, st1) => some (.panicked, st1)
    else some (.returned, st)

/-- What a finished call of `ServeHTTP` leaves behind. -/
structure Outcome where
  exit : Exit
  header : List (String × String)
  body : String
  emitted : List (Option Article)
  calls : List Call
deriving DecidableEq, Repr

/-- The state of `ServeHTTP` when the batch loop is entered: headers set and the
opening bracket written. -/
def initState : ServeState :=
  { articleCount := 0, addComma := false,
    header := [("Content-Type", "application/json"), ("Status", "200")],
    body := "[", emitted := [], calls := [] }

/-- The deferred `w.Write("]")`, which runs on every way out of the handler. -/
def finish (r : Exit × ServeState) : Outcome :=
  { exit := r.1, header := r.2.header, body := r.2.body ++ "]",
    emitted := r.2.emitted, calls := r.2.calls }

/-- The handler `ServeHTTP`, from the window `(count, offset)` on. -/
def serveWindow (a : App) (marshal : Option Article → Option String) (fuel : Nat)
    (count offset : Nat) : Option Outcome :=
  (batchLoop a marshal offset count fuel 0 initState).map finish

/-- The handler `ServeHTTP` on the raw query values. `getURLParams` returns no
negative value, so `toNat` keeps the window as it is. `none`: the handler is
still in its loop after `fuel` batches. -/
def ServeHTTP (a : App) (marshal : Option Article → Option String) (fuel : Nat)
    (countRaw offsetRaw : String) : Option Outcome :=
  let p := getURLParams countRaw offsetRaw
  serveWindow a marshal fuel p.1.toNat p.2.1.toNat


/-! ## Vocabulary of the specification -/

/-- A non-empty run of decimal digits. -/
def isDigits (ds : List Char) : Bool :=
  !ds.isEmpty && ds.all Char.isDigit

/-- The number that a run of decimal digits denotes. -/
def digitsValue (ds : List Char) : Nat :=
  ds.foldl (fun n c => n * 10 + (c.toNat - 48)) 0

/-- A raw value without its sign character, if it starts with one. -/
def unsigned (s : List Char) : List Char :=
  match s with
  | [] => []
  | c :: cs => if c = '+' ∨ c = '-' then cs else s

/-- A numeric raw value: decimal digits after an optional sign. -/
def isNumeric (s : List Char) : Bool :=
  isDigits (unsigned s)

/-- The digits of a raw value that stand ahead of its first character that is
not a digit (the sign apart). -/
def leadingDigits (s : List Char) : List Char :=
  (unsigned s).takeWhile Char.isDigit

/-- The count of the window that `getURLParams` returns. -/
def windowCount (countRaw offsetRaw : String) : Int :=
  (getURLParams countRaw offsetRaw).1

/-- The offset of the window that `getURLParams` returns. -/
def windowOffset (countRaw offsetRaw : String) : Int :=
  (getURLParams countRaw offsetRaw).2.1

/-- The call of `retrieveContent` to the primary provider of a slot. -/
def primaryFetch (a : App) (batch idx : Nat) (cfg : ContentConfig) : Fetched :=
  a.ContentClients cfg.Type_ ⟨batch, idx, false⟩ "Test" 1

/-- The call of `retrieveContent` to the fallback provider `fb` of a slot. -/
def fallbackFetch (a : App) (batch idx : Nat) (fb : Provider) : Fetched :=
  a.ContentClients fb ⟨batch, idx, true⟩ "Test" 1

/-- A fetch fails: its error is not nil. -/
def Fetched.fails (r : Fetched) : Bool := r.err.isSome

/-- A fetch succeeds: its error is nil and it brings an article. -/
def Fetched.succeeds (r : Fetched) : Bool := r.err.isNone && !r.content.isEmpty

/-- An unrecoverable slot: the primary fetch fails and the slot has no fallback,
or the fetch from its fallback fails as well. -/
def unrecoverable (a : App) (batch idx : Nat) (cfg : ContentConfig) : Bool :=
  (primaryFetch a batch idx cfg).fails &&
    match cfg.Fallback with
    | none => true
    | some fb => (fallbackFetch a batch idx fb).fails

/-- A slot that yields an article: its primary fetch succeeds, or it fails and
the fetch from the fallback of the slot succeeds. -/
def resolves (a : App) (batch idx : Nat) (cfg : ContentConfig) : Bool :=
  (primaryFetch a batch idx cfg).succeeds ||
    ((primaryFetch a batch idx cfg).fails &&
      match cfg.Fallback with
      | none => false
      | some fb => (fallbackFetch a batch idx fb).succeeds)

/-- The primary fetch of a slot succeeds with an article of the slot's primary
provider. -/
def primaryDelivers (a : App) (batch idx : Nat) (cfg : ContentConfig) : Prop :=
  (primaryFetch a batch idx cfg).err = none ∧
    ∃ art tl, (primaryFetch a batch idx cfg).content = some art :: tl ∧
      art.Source = cfg.Type_

/-- The response that the goroutine of a slot sends on the slot's channel. -/
def slotResponse (a : App) (batch : Nat) (p : Nat × ContentConfig) : Response :=
  (retrieveContent a batch p.1 p.2).1

/-- The pointer `val.Content[0]` that the join loop hands to `marshalAndWrite`. -/
def firstArticle (r : Response) : Option Article := r.Content.headD none

/-- The article that a slot contributes to the stream. -/
def slotArticle (a : App) (batch : Nat) (p : Nat × ContentConfig) : Option Article :=
  firstArticle (slotResponse a batch p)

/-- A response from which the join loop emits an article. -/
def Response.ok (r : Response) : Bool := r.Error.isNone && !r.Content.isEmpty

/-- The responses of one batch, in slot order. -/
def batchResponses (a : App) (batch offset : Nat) : List Response :=
  (batchSlots a offset).map (slotResponse a batch)

/-- The calls issued by the goroutines of one batch, listed in slot order. -/
def batchCalls (a : App) (batch offset : Nat) : List Call :=
  ((batchSlots a offset).map fun p => (retrieveContent a batch p.1 p.2).2).flatten

/-- The state after the join loop has emitted the articles `arts`. -/
def emitAll (marshal : Option Article → Option String) (arts : List (Option Article))
    (st : ServeState) : ServeState :=
  arts.foldl (fun s art => marshalAndWrite marshal art (writeComma s)) st

/-- The state after a batch all of whose slots yield an article. -/
def afterBatch (a : App) (marshal : Option Article → Option String) (batch offset : Nat)
    (st : ServeState) : ServeState :=
  emitAll marshal ((batchSlots a offset).map (slotArticle a batch))
    { st with calls := st.calls ++ batchCalls a batch offset }

/-- The state after `n` such batches, the first of them being batch `b0`. -/
def afterBatches (a : App) (marshal : Option Article → Option String) (offset : Nat) :
    Nat → Nat → ServeState → ServeState
  | 0, _, st => st
  | n + 1, b0, st => afterBatches a marshal offset n (b0 + 1) (afterBatch a marshal b0 offset st)

/-- The articles of `n` complete batches, the first of them being batch `b0`. -/
def batchesArticles (a : App) (offset : Nat) : Nat → Nat → List (Option Article)
  | 0, _ => []
  | n + 1, b0 => (batchSlots a offset).map (slotArticle a b0) ++ batchesArticles a offset n (b0 + 1)

/-- The sources of a stream follow the slots `cfgs` round after round. -/
def followsMix (cfgs : List ContentConfig) (arts : List (Option Article)) : Prop :=
  ∀ k, k < arts.length →
    ∃ art cfg, arts[k]? = some (some art) ∧ cfgs[k % cfgs.length]? = some cfg ∧
      art.Source = cfg.Type_

/-- The bytes that `marshalAndWrite` appends for each article of a stream. -/
def encodings (marshal : Option Article → Option String) (arts : List (Option Article)) :
    List String :=
  arts.map fun art => (marshal art).getD ""

/-- The body written so far is the opening bracket and the bytes of the emitted
articles with a comma between neighbours, and `addComma` is set once an article
has been emitted. -/
def Framed (marshal : Option Article → Option String) (st : ServeState) : Prop :=
  st.body = "[" ++ ",".intercalate (encodings marshal st.emitted) ∧
    st.addComma = !st.emitted.isEmpty

/-! ## Sample servers

The tests run the handler on a mix of eight slots laid out as
`config1, config1, config2, config3, config4, config1, config1, config2`, with
sample providers, with `ErrProvider` for provider 1, and with `ErrProvider` for
all providers. The declarations of these slots are not among the sources; the
ones below are chosen so that slot 4 (`config4`) has provider 1 and no fallback,
as the comment of `TestErr_NoFallback` describes. -/

def config1 : ContentConfig := { Type_ := "1", Fallback := some "2" }

def config2 : ContentConfig := { Type_ := "2", Fallback := some "3" }

def config3 : ContentConfig := { Type_ := "3", Fallback := some "1" }

def config4 : ContentConfig := { Type_ := "1", Fallback := none }

def sampleMix : ContentMix :=
  [config1, config1, config2, config3, config4, config1, config1, config2]

/-- A sample client for every provider. -/
def sampleClients : Provider → Client :=
  fun p => SampleContentProvider p (fun site i => site.batch * 8 + site.idx + i)
    (fun _ => { year := 2024, withinYear := 0 })

/-- The server of the success tests. -/
def okApp : App := { ContentClients := sampleClients, Config := sampleMix }

/-- The server of `TestErr_NoFallback`: provider 1 fails. -/
def errApp : App :=
  { ContentClients := fun p => if p = "1" then ErrProvider p else sampleClients p,
    Config := sampleMix }

/-- The server of `TestErr_AllProviders`: every provider fails. -/
def allErrApp : App := { ContentClients := fun p => ErrProvider p, Config := sampleMix }

/-- A server with two slots and sample providers. -/
def twoSlotApp : App :=
  { ContentClients := sampleClients
    Config := [{ Type_ := "1", Fallback := none }, { Type_ := "2", Fallback := none }] }

/-- A marshaller in the manner of `json.Marshal` on a `*Article`: a nil pointer
gives `null`; an article whose `Expiry` lies in a year outside 0..9999 is refused
(`time.Time.MarshalJSON` returns an error for it); any other article gives an
object. The text of the object is abridged to two of its fields: only where it
starts and ends matters here. -/
def marshalArticle : Option Article → Option String
  | none => some "null"
  | some art =>
    if 0 ≤ art.Expiry.year ∧ art.Expiry.year ≤ 9999 then
      some ("\x7b\"id\":\"" ++ art.ID ++ "\",\"source\":\"" ++ art.Source ++ "\"\x7d")
    else none

/-- A provider whose articles expire in the year 10000. -/
def farFutureProvider (Source : Provider) : Client :=
  SampleContentProvider Source (fun site i => site.batch * 8 + site.idx + i)
    (fun _ => { year := 10000, withinYear := 0 })

/-- A server with two slots: the articles of provider 1 expire in the year 10000,
the articles of provider 2 in 2024. -/
def farFutureApp : App :=
  { ContentClients := fun p => if p = "1" then farFutureProvider p else sampleClients p
    Config := [{ Type_ := "1", Fallback := none }, { Type_ := "2", Fallback := none }] }

/-! ## strconv.Atoi and getURLParams -/

theorem digit_not_sign (c : Char) (h : c.isDigit = true) : ¬ (c = '+' ∨ c = '-') := by
  rintro (rfl | rfl) <;> revert h <;> decide

theorem foldDigits_ge (ds : List Char) (n : Nat) :
    n ≤ ds.foldl (fun n c => n * 10 + (c.toNat - 48)) n := by
  induction ds generalizing n with
  | nil => simp
  | cons c cs ih =>
    simp only [List.foldl_cons]
    exact le_trans (by omega) (ih _)

/-- On a run of digits the loop of `ParseUint` either returns their value, which
fits 64 bits, or reports a range error with the largest value, and then the
value does not fit. -/
theorem parseDigits_digits (ds : List Char) (n : Nat) (hd : ∀ c ∈ ds, c.isDigit = true)
    (hn : n ≤ maxUint64) :
    (parseDigits ds n = (ds.foldl (fun n c => n * 10 + (c.toNat - 48)) n, none) ∧
        ds.foldl (fun n c => n * 10 + (c.toNat - 48)) n ≤ maxUint64) ∨
    (parseDigits ds n = (maxUint64, some .ErrRange) ∧
        maxUint64 < ds.foldl (fun n c => n * 10 + (c.toNat - 48)) n) := by
  induction ds generalizing n with
  | nil => left; simp [parseDigits, hn]
  | cons c cs ih =>
    have hc : c.isDigit = true := hd c (by simp)
    have hcs : ∀ c ∈ cs, c.isDigit = true := fun x hx => hd x (by simp [hx])
    simp only [parseDigits, hc, if_true, List.foldl_cons]
    have hge := foldDigits_ge cs (n * 10 + (c.toNat - 48))
    by_cases h1 : n ≥ maxUint64 / 10 + 1
    · right
      simp only [h1, if_true, true_and]
      simp only [maxUint64] at h1 ⊢
      omega
    · simp only [h1, if_false]
      by_cases h2 : n * 10 + (c.toNat - 48) > maxUint64
      · right
        simp only [h2, if_true, true_and]
        omega
      · simp only [h2, if_false]
        exact ih _ hcs (by omega)

/-- Digits that fit 64 bits are read up to the first other character. -/
theorem parseDigits_append (pre rest : List Char) (n : Nat)
    (hd : ∀ c ∈ pre, c.isDigit = true)
    (hv : pre.foldl (fun n c => n * 10 + (c.toNat - 48)) n ≤ maxUint64) :
    parseDigits (pre ++ rest) n =
      parseDigits rest (pre.foldl (fun n c => n * 10 + (c.toNat - 48)) n) := by
  induction pre generalizing n with
  | nil => simp
  | cons c cs ih =>
    have hc : c.isDigit = true := hd c (by simp)
    have hcs : ∀ c ∈ cs, c.isDigit = true := fun x hx => hd x (by simp [hx])
    simp only [List.foldl_cons] at hv
    have hge := foldDigits_ge cs (n * 10 + (c.toNat - 48))
    have h1 : ¬ n ≥ maxUint64 / 10 + 1 := by
      simp only [maxUint64] at hv hge ⊢
      omega
    have h2 : ¬ n * 10 + (c.toNat - 48) > maxUint64 := by omega
    simp only [List.cons_append, parseDigits, hc, if_true, h1, if_false, h2, List.foldl_cons]
    exact ih _ hcs hv

theorem isDigits_iff (ds : List Char) :
    isDigits ds = true ↔ ds ≠ [] ∧ ∀ c ∈ ds, c.isDigit = true := by
  cases ds <;> simp [isDigits]

/-- `ParseUint` on a run of digits. -/
theorem ParseUint_digits (ds : List Char) (hd : isDigits ds = true) :
    (ParseUint ds = (digitsValue ds, none) ∧ digitsValue ds ≤ maxUint64) ∨
    (ParseUint ds = (maxUint64, some .ErrRange) ∧ maxUint64 < digitsValue ds) := by
  obtain ⟨hne, hall⟩ := (isDigits_iff ds).1 hd
  simp only [ParseUint, hne, if_false, digitsValue]
  exact parseDigits_digits ds 0 hall (by simp [maxUint64])

/-- `ParseUint` on a value that is not a run of digits, when the digits ahead of
the first other character fit 64 bits. -/
theorem ParseUint_malformed (u : List Char) (hd : isDigits u = false)
    (hv : digitsValue (u.takeWhile Char.isDigit) ≤ maxUint64) :
    ParseUint u = (0, some .ErrSyntax) := by
  by_cases hne : u = []
  · simp [ParseUint, hne]
  · simp only [ParseUint, hne, if_false]
    have hsplit : u = u.takeWhile Char.isDigit ++ u.dropWhile Char.isDigit :=
      (List.takeWhile_append_dropWhile _ _).symm
    have hpre : ∀ c ∈ u.takeWhile Char.isDigit, c.isDigit = true :=
      fun c hc => List.mem_takeWhile_imp hc
    rw [hsplit, parseDigits_append _ _ 0 hpre hv]
    cases hdrop : u.dropWhile Char.isDigit with
    | nil =>
      exfalso
      have hall : ∀ c ∈ u, c.isDigit = true := by
        rw [hsplit, hdrop, List.append_nil]; exact hpre
      have : isDigits u = true := (isDigits_iff u).2 ⟨hne, hall⟩
      rw [hd] at this; exact Bool.noConfusion this
    | cons c cs =>
      have hc : ¬ (c.isDigit = true) := by
        have := List.head_dropWhile_not Char.isDigit u (by rw [hdrop]; simp)
        simpa [hdrop] using this
      simp [parseDigits, hc]

theorem ParseInt_cons (c : Char) (cs : List Char) :
    ParseInt (c :: cs) =
      (let neg := decide (c = '-')
       let r := ParseUint (unsigned (c :: cs))
       if r.2 = some .ErrSyntax then (0, some .ErrSyntax)
       else if !neg && decide (r.1 ≥ 9223372036854775808) then (maxInt64, some .ErrRange)
       else if neg && decide (r.1 > 9223372036854775808) then (minInt64, some .ErrRange)
       else (if neg then -(r.1 : Int) else (r.1 : Int), none)) := rfl

/-- A non-negative number within the range of `int` is read as itself. -/
theorem ParseInt_nonneg (s : List Char) (hs : isNumeric s = true)
    (hneg : s.head? ≠ some '-') (hv : (digitsValue (unsigned s) : Int) ≤ maxInt64) :
    ParseInt s = ((digitsValue (unsigned s) : Int), none) := by
  cases s with
  | nil => simp [isNumeric, unsigned, isDigits] at hs
  | cons c cs =>
    have hc : ¬ c = '-' := by simpa using hneg
    rw [ParseInt_cons]
    simp only [isNumeric] at hs
    simp only [maxInt64] at hv
    rcases ParseUint_digits _ hs with ⟨h, _⟩ | ⟨_, hbig⟩
    · simp only [h, hc, decide_False, Bool.not_false, Bool.true_and, Bool.false_and]
      have : ¬ (digitsValue (unsigned (c :: cs)) ≥ 9223372036854775808) := by omega
      simp [this]
    · simp only [maxUint64] at hbig; omega

/-- A non-negative number beyond the range of `int` is read as the largest
`int`. -/
theorem ParseInt_large (s : List Char) (hs : isNumeric s = true)
    (hneg : s.head? ≠ some '-') (hv : maxInt64 < (digitsValue (unsigned s) : Int)) :
    ParseInt s = (maxInt64, some .ErrRange) := by
  cases s with
  | nil => simp [isNumeric, unsigned, isDigits] at hs
  | cons c cs =>
    have hc : ¬ c = '-' := by simpa using hneg
    rw [ParseInt_cons]
    simp only [isNumeric] at hs
    simp only [maxInt64] at hv
    rcases ParseUint_digits _ hs with ⟨h, _⟩ | ⟨h, _⟩
    · simp only [h, hc, decide_False, Bool.not_false, Bool.true_and, Bool.false_and]
      have : digitsValue (unsigned (c :: cs)) ≥ 9223372036854775808 := by omega
      simp [this]
    · simp [h, hc, maxUint64]

/-- A number written with a minus sign is never read as a positive one. -/
theorem ParseInt_minus (ds : List Char) (hd : isDigits ds = true) :
    (ParseInt ('-' :: ds)).1 ≤ 0 := by
  rw [ParseInt_cons]
  have hu : unsigned ('-' :: ds) = ds := by simp [unsigned]
  rw [hu]
  rcases ParseUint_digits _ hd with ⟨h, _⟩ | ⟨h, _⟩
  · simp only [h]
    by_cases hb : digitsValue ds > 9223372036854775808
    · simp [hb, minInt64]
    · simp [hb]
  · simp [h, maxUint64, minInt64]

/-- A value that is not numeric is read as 0, when the digits ahead of its first
other character fit 64 bits. -/
theorem ParseInt_malformed (s : List Char) (hs : isNumeric s = false)
    (hv : digitsValue (leadingDigits s) ≤ maxUint64) :
    ParseInt s = (0, some .ErrSyntax) := by
  cases s with
  | nil => rfl
  | cons c cs =>
    rw [ParseInt_cons]
    have := ParseUint_malformed (unsigned (c :: cs)) hs hv
    simp [this]

/-! ## The join loop and one batch -/

@[simp] theorem emitAll_nil (m : Option Article → Option String) (st : ServeState) :
    emitAll m [] st = st := rfl

@[simp] theorem emitAll_cons (m : Option Article → Option String) (art : Option Article)
    (arts : List (Option Article)) (st : ServeState) :
    emitAll m (art :: arts) st = emitAll m arts (marshalAndWrite m art (writeComma st)) := rfl

theorem emitAll_append (m : Option Article → Option String) (xs ys : List (Option Article))
    (st : ServeState) : emitAll m (xs ++ ys) st = emitAll m ys (emitAll m xs st) := by
  simp [emitAll, List.foldl_append]

@[simp] theorem emitAll_articleCount (m : Option Article → Option String)
    (arts : List (Option Article)) (st : ServeState) :
    (emitAll m arts st).articleCount = st.articleCount + arts.length := by
  induction arts generalizing st with
  | nil => simp
  | cons x xs ih => simp [ih, marshalAndWrite, writeComma]; omega

@[simp] theorem emitAll_emitted (m : Option Article → Option String)
    (arts : List (Option Article)) (st : ServeState) :
    (emitAll m arts st).emitted = st.emitted ++ arts := by
  induction arts generalizing st with
  | nil => simp
  | cons x xs ih => simp [ih, marshalAndWrite, writeComma]

@[simp] theorem emitAll_calls (m : Option Article → Option String)
    (arts : List (Option Article)) (st : ServeState) :
    (emitAll m arts st).calls = st.calls := by
  induction arts generalizing st with
  | nil => simp
  | cons x xs ih => simp [ih, marshalAndWrite, writeComma]

theorem Response.ok_iff (v : Response) :
    v.ok = true ↔ v.Error = none ∧ ∃ art tl, v.Content = art :: tl := by
  cases v with
  | mk c e => cases c <;> cases e <;> simp [Response.ok]

theorem joinLoop_ok_cons (m : Option Article → Option String) (count : Nat) (v : Response)
    (rest : List Response) (st : ServeState) (hv : v.ok = true) :
    joinLoop m count (v :: rest) st =
      if (st.articleCount + 1 = count) then
        (.retNil, marshalAndWrite m (firstArticle v) (writeComma st))
      else joinLoop m count rest (marshalAndWrite m (firstArticle v) (writeComma st)) := by
  obtain ⟨he, art, tl, hc⟩ := (Response.ok_iff v).1 hv
  simp [joinLoop, he, hc, firstArticle, marshalAndWrite, writeComma]

theorem joinLoop_err_cons (m : Option Article → Option String) (count : Nat) (v : Response)
    (rest : List Response) (st : ServeState) (hv : v.Error ≠ none) :
    joinLoop m count (v :: rest) st = (.retErr, st) := by
  cases he : v.Error with
  | none => exact absurd he hv
  | some e => simp [joinLoop, he]

/-- Responses that all yield an article are emitted one after the other as long
as the count is not reached. -/
theorem joinLoop_ok_append (m : Option Article → Option String) (count : Nat)
    (vals rest : List Response) (st : ServeState) (hok : ∀ v ∈ vals, v.ok = true)
    (hlt : st.articleCount + vals.length < count) :
    joinLoop m count (vals ++ rest) st =
      joinLoop m count rest (emitAll m (vals.map firstArticle) st) := by
  induction vals generalizing st with
  | nil => simp
  | cons v vs ih =>
    have hv : v.ok = true := hok v (by simp)
    have hvs : ∀ v ∈ vs, v.ok = true := fun x hx => hok x (by simp [hx])
    simp only [List.length_cons] at hlt
    have hne : ¬ (st.articleCount + 1 = count) := by omega
    rw [List.cons_append, joinLoop_ok_cons m count v _ st hv, if_neg hne, ih _ hvs]
    · simp
    · simp [marshalAndWrite, writeComma]; omega

/-- The join loop stops with a nil error at the response that brings the count
to the requested one. -/
theorem joinLoop_reach (m : Option Article → Option String) (count : Nat)
    (pre : List Response) (v : Response) (rest : List Response) (st : ServeState)
    (hok : ∀ x ∈ pre, x.ok = true) (hv : v.ok = true)
    (heq : st.articleCount + pre.length + 1 = count) :
    joinLoop m count (pre ++ v :: rest) st =
      (.retNil, emitAll m ((pre ++ [v]).map firstArticle) st) := by
  rw [joinLoop_ok_append m count pre _ st hok (by omega), joinLoop_ok_cons m count v _ _ hv]
  simp [emitAll_append, heq]

/-- The join loop stops with an error at the first response that carries one;
the articles before it are emitted. -/
theorem joinLoop_fail (m : Option Article → Option String) (count : Nat)
    (pre : List Response) (v : Response) (rest : List Response) (st : ServeState)
    (hok : ∀ x ∈ pre, x.ok = true) (hv : v.Error ≠ none)
    (hlt : st.articleCount + pre.length < count) :
    joinLoop m count (pre ++ v :: rest) st =
      (.retErr, emitAll m (pre.map firstArticle) st) := by
  rw [joinLoop_ok_append m count pre _ st hok hlt, joinLoop_err_cons m count v _ _ hv]

theorem retrieveBatch_eq (a : App) (m : Option Article → Option String)
    (batch offset count : Nat) (st : ServeState) :
    retrieveBatch a m batch offset count st =
      joinLoop m count (batchResponses a batch offset)
        { st with calls := st.calls ++ batchCalls a batch offset } := by
  simp only [retrieveBatch, batchResponses, batchCalls, List.map_map, Function.comp_def]
  rfl

/-! ## The slots of a batch -/

@[simp] theorem batchSlots_length (a : App) (offset : Nat) :
    (batchSlots a offset).length = a.Config.length - offset := by
  simp [batchSlots]

theorem batchSlots_getElem? (a : App) (offset k : Nat) :
    (batchSlots a offset)[k]? = (a.Config[offset + k]?).map fun c => (offset + k, c) := by
  simp [batchSlots, List.getElem?_drop, List.getElem?_enum]

theorem mem_batchSlots (a : App) (offset : Nat) (p : Nat × ContentConfig)
    (hp : p ∈ batchSlots a offset) : a.Config[p.1]? = some p.2 ∧ offset ≤ p.1 := by
  obtain ⟨k, hk, hget⟩ := List.getElem_of_mem hp
  have h2 : (batchSlots a offset)[k]? = some p := by
    rw [List.getElem?_eq_getElem hk, hget]
  rw [batchSlots_getElem?] at h2
  cases hc : a.Config[offset + k]? with
  | none => simp [hc] at h2
  | some c =>
    rw [hc] at h2
    simp only [Option.map_some', Option.some.injEq] at h2
    subst h2
    exact ⟨hc, Nat.le_add_right _ _⟩

theorem batchSlots_of_le (a : App) (offset : Nat) (h : a.Config.length ≤ offset) :
    batchSlots a offset = [] := by
  apply List.eq_nil_of_length_eq_zero
  simp; omega

/-! ## What a slot sends on its channel -/

theorem slotResponse_of_resolves (a : App) (b i : Nat) (cfg : ContentConfig)
    (h : resolves a b i cfg = true) : (slotResponse a b (i, cfg)).ok = true := by
  unfold resolves Fetched.succeeds Fetched.fails primaryFetch at h
  unfold slotResponse retrieveContent Response.ok
  cases he : (a.ContentClients cfg.Type_ ⟨b, i, false⟩ "Test" 1).err with
  | none => simpa [he] using h
  | some e =>
    cases hf : cfg.Fallback with
    | none => simp [he, hf] at h
    | some fb => simpa [he, hf, fallbackFetch, Fetched.succeeds] using h

theorem slotResponse_of_unrecoverable (a : App) (b i : Nat) (cfg : ContentConfig)
    (h : unrecoverable a b i cfg = true) : (slotResponse a b (i, cfg)).Error ≠ none := by
  unfold unrecoverable Fetched.fails primaryFetch at h
  cases he : (a.ContentClients cfg.Type_ ⟨b, i, false⟩ "Test" 1).err with
  | none => simp [he] at h
  | some e =>
    cases hf : cfg.Fallback with
    | none => simp [slotResponse, retrieveContent, he, hf]
    | some fb =>
      simp only [he, hf, Option.isSome_some, Bool.true_and, fallbackFetch, Fetched.fails] at h
      simp only [slotResponse, retrieveContent, he, hf]
      intro hnone
      rw [hnone] at h
      exact Bool.noConfusion h

theorem slotResponse_of_primaryDelivers (a : App) (b i : Nat) (cfg : ContentConfig)
    (h : primaryDelivers a b i cfg) :
    (slotResponse a b (i, cfg)).ok = true ∧
      ∃ art, slotArticle a b (i, cfg) = some art ∧ art.Source = cfg.Type_ := by
  obtain ⟨he, art, tl, hc, hs⟩ := h
  unfold primaryFetch at he hc
  unfold slotArticle firstArticle slotResponse retrieveContent Response.ok
  simp only [he, hc]
  exact ⟨by simp, art, by simp, hs⟩

/-! ## One batch -/

/-- A batch all of whose slots yield an article and which stays below the count
emits them all and returns nil. -/
theorem retrieveBatch_full (a : App) (m : Option Article → Option String)
    (batch offset count : Nat) (st : ServeState)
    (hok : ∀ p ∈ batchSlots a offset, (slotResponse a batch p).ok = true)
    (hlt : st.articleCount + (a.Config.length - offset) < count) :
    retrieveBatch a m batch offset count st = (.retNil, afterBatch a m batch offset st) := by
  rw [retrieveBatch_eq]
  have h := joinLoop_ok_append m count (batchResponses a batch offset) []
    { st with calls := st.calls ++ batchCalls a batch offset }
    (by
      intro v hv
      simp only [batchResponses, List.mem_map] at hv
      obtain ⟨p, hp, rfl⟩ := hv
      exact hok p hp)
    (by simpa [batchResponses] using hlt)
  rw [List.append_nil] at h
  rw [h]
  simp only [joinLoop, afterBatch, batchResponses, List.map_map]
  rfl

theorem batchSlots_split (a : App) (offset k : Nat) (hk : k < a.Config.length - offset) :
    ∃ p, (batchSlots a offset)[k]? = some p ∧
      batchSlots a offset =
        (batchSlots a offset).take k ++ p :: (batchSlots a offset).drop (k + 1) := by
  have hlen : k < (batchSlots a offset).length := by simpa using hk
  refine ⟨(batchSlots a offset)[k], List.getElem?_eq_getElem hlen, ?_⟩
  rw [List.getElem_cons_drop _ _ hlen, List.take_append_drop]

/-- A batch in which the slot at position `k` brings the count to the requested
one, the slots before it yielding an article each. -/
theorem retrieveBatch_reach (a : App) (m : Option Article → Option String)
    (batch offset count k : Nat) (st : ServeState)
    (hk : k < a.Config.length - offset)
    (hok : ∀ p ∈ (batchSlots a offset).take (k + 1), (slotResponse a batch p).ok = true)
    (heq : st.articleCount + k + 1 = count) :
    retrieveBatch a m batch offset count st =
      (.retNil, emitAll m (((batchSlots a offset).take (k + 1)).map (slotArticle a batch))
        { st with calls := st.calls ++ batchCalls a batch offset }) := by
  obtain ⟨p, hp, hsplit⟩ := batchSlots_split a offset k hk
  have hlen : k < (batchSlots a offset).length := by simpa using hk
  have htake : (batchSlots a offset).take (k + 1) = (batchSlots a offset).take k ++ [p] := by
    rw [List.take_succ, hp]; rfl
  rw [retrieveBatch_eq, batchResponses, hsplit, List.map_append, List.map_cons]
  rw [joinLoop_reach m count _ _ _ _ ?_ ?_ ?_]
  · rw [← hsplit, htake]
    simp only [List.map_append, List.map_map, List.map_cons, List.map_nil]
    rfl
  · intro x hx
    simp only [List.mem_map] at hx
    obtain ⟨q, hq, rfl⟩ := hx
    exact hok q (by rw [htake]; simp [hq])
  · exact hok p (by rw [htake]; simp)
  · simp [List.length_take, Nat.min_eq_left (Nat.le_of_lt hlen)]; omega

/-- A batch in which the slot at position `k` carries an error, the slots before
it yielding an article each and the count not being reached before it. -/
theorem retrieveBatch_fail (a : App) (m : Option Article → Option String)
    (batch offset count k : Nat) (st : ServeState)
    (hk : k < a.Config.length - offset)
    (hok : ∀ p ∈ (batchSlots a offset).take k, (slotResponse a batch p).ok = true)
    (hbad : ∀ p, (batchSlots a offset)[k]? = some p → (slotResponse a batch p).Error ≠ none)
    (hlt : st.articleCount + k < count) :
    retrieveBatch a m batch offset count st =
      (.retErr, emitAll m (((batchSlots a offset).take k).map (slotArticle a batch))
        { st with calls := st.calls ++ batchCalls a batch offset }) := by
  obtain ⟨p, hp, hsplit⟩ := batchSlots_split a offset k hk
  have hlen : k < (batchSlots a offset).length := by simpa using hk
  rw [retrieveBatch_eq, batchResponses, hsplit, List.map_append, List.map_cons]
  rw [joinLoop_fail m count _ _ _ _ ?_ (hbad p hp) ?_]
  · rw [← hsplit]
    simp only [List.map_map]
    rfl
  · intro x hx
    simp only [List.mem_map] at hx
    obtain ⟨q, hq, rfl⟩ := hx
    exact hok q hq
  · simp [List.length_take, Nat.min_eq_left (Nat.le_of_lt hlen)]; omega

/-! ## The loop of `ServeHTTP` -/

theorem batchLoop_done (a : App) (m : Option Article → Option String)
    (offset count fuel batch : Nat) (st : ServeState) (h : ¬ st.articleCount < count) :
    batchLoop a m offset count fuel batch st = some (.returned, st) := by
  cases fuel <;> simp [batchLoop, h]

theorem batchLoop_zero (a : App) (m : Option Article → Option String)
    (offset count batch : Nat) (st : ServeState) (h : st.articleCount < count) :
    batchLoop a m offset count 0 batch st = none := by
  simp [batchLoop, h]

theorem batchLoop_succ (a : App) (m : Option Article → Option String)
    (offset count fuel batch : Nat) (st : ServeState) (h : st.articleCount < count) :
    batchLoop a m offset count (fuel + 1) batch st =
      match retrieveBatch a m batch offset count st with
      | (.retNil, st1) => batchLoop a m offset count fuel (batch + 1) st1
      | (.retErr, st1) => some (.returned, st1)
      | (.outOfRange, st1) => some (.panicked, st1) := by
  simp [batchLoop, h]

@[simp] theorem afterBatch_articleCount (a : App) (m : Option Article → Option String)
    (batch offset : Nat) (st : ServeState) :
    (afterBatch a m batch offset st).articleCount =
      st.articleCount + (a.Config.length - offset) := by
  simp [afterBatch]

@[simp] theorem afterBatch_emitted (a : App) (m : Option Article → Option String)
    (batch offset : Nat) (st : ServeState) :
    (afterBatch a m batch offset st).emitted =
      st.emitted ++ (batchSlots a offset).map (slotArticle a batch) := by
  simp [afterBatch]

theorem afterBatches_articleCount (a : App) (m : Option Article → Option String)
    (offset n b0 : Nat) (st : ServeState) :
    (afterBatches a m offset n b0 st).articleCount =
      st.articleCount + n * (a.Config.length - offset) := by
  induction n generalizing b0 st with
  | zero => simp [afterBatches]
  | succ n ih => simp [afterBatches, ih, Nat.add_mul]; omega

theorem afterBatches_emitted (a : App) (m : Option Article → Option String)
    (offset n b0 : Nat) (st : ServeState) :
    (afterBatches a m offset n b0 st).emitted = st.emitted ++ batchesArticles a offset n b0 := by
  induction n generalizing b0 st with
  | zero => simp [afterBatches, batchesArticles]
  | succ n ih => simp [afterBatches, batchesArticles, ih]

theorem batchesArticles_length (a : App) (offset n b0 : Nat) :
    (batchesArticles a offset n b0).length = n * (a.Config.length - offset) := by
  induction n generalizing b0 with
  | zero => simp [batchesArticles]
  | succ n ih => simp [batchesArticles, ih, Nat.add_mul]; omega

/-- While the count stays out of reach, `n` batches whose slots all yield an
article take `n` rounds of the loop. -/
theorem batchLoop_full_batches (a : App) (m : Option Article → Option String)
    (offset count : Nat) (n b0 fuel : Nat) (st : ServeState)
    (hok : ∀ b, b0 ≤ b → b < b0 + n →
      ∀ p ∈ batchSlots a offset, (slotResponse a b p).ok = true)
    (hlt : st.articleCount + n * (a.Config.length - offset) < count) :
    batchLoop a m offset count (n + fuel) b0 st =
      batchLoop a m offset count fuel (b0 + n) (afterBatches a m offset n b0 st) := by
  induction n generalizing b0 st with
  | zero => simp [afterBatches]
  | succ n ih =>
    have hmul : (n + 1) * (a.Config.length - offset) =
        (a.Config.length - offset) + n * (a.Config.length - offset) := by
      rw [Nat.add_mul]; omega
    have h1 : st.articleCount < count := by omega
    have h2 : st.articleCount + (a.Config.length - offset) < count := by omega
    have hfuel : n + 1 + fuel = (n + fuel) + 1 := by omega
    rw [hfuel, batchLoop_succ a m offset count _ b0 st h1,
      retrieveBatch_full a m b0 offset count st (hok b0 (le_refl _) (by omega)) h2]
    simp only
    rw [ih (b0 + 1) (afterBatch a m b0 offset st)
      (fun b hb1 hb2 => hok b (by omega) (by omega))
      (by rw [afterBatch_articleCount]; omega)]
    simp only [afterBatches]
    congr 1
    omega

theorem mem_take_batchSlots (a : App) (offset k : Nat) (p : Nat × ContentConfig)
    (hp : p ∈ (batchSlots a offset).take k) :
    a.Config[p.1]? = some p.2 ∧ offset ≤ p.1 ∧ p.1 < offset + k := by
  obtain ⟨i, hi, hget⟩ := List.getElem_of_mem hp
  have hik : i < k := by
    rw [List.length_take] at hi; omega
  have h2 : (batchSlots a offset)[i]? = some p := by
    rw [← hget, List.getElem_take, List.getElem?_eq_getElem]
  rw [batchSlots_getElem?] at h2
  cases hc : a.Config[offset + i]? with
  | none => simp [hc] at h2
  | some c =>
    rw [hc] at h2
    simp only [Option.map_some', Option.some.injEq] at h2
    subst h2
    exact ⟨hc, Nat.le_add_right _ _, by simp only; omega⟩

@[simp] theorem emitAll_header (m : Option Article → Option String)
    (arts : List (Option Article)) (st : ServeState) :
    (emitAll m arts st).header = st.header := by
  induction arts generalizing st with
  | nil => simp
  | cons x xs ih => simp [ih, marshalAndWrite, writeComma]

@[simp] theorem afterBatch_header (a : App) (m : Option Article → Option String)
    (batch offset : Nat) (st : ServeState) :
    (afterBatch a m batch offset st).header = st.header := by
  simp [afterBatch]

theorem afterBatches_header (a : App) (m : Option Article → Option String)
    (offset n b0 : Nat) (st : ServeState) :
    (afterBatches a m offset n b0 st).header = st.header := by
  induction n generalizing b0 st with
  | zero => simp [afterBatches]
  | succ n ih => simp [afterBatches, ih]

/-- The run of the loop up to the first unrecoverable slot: `b` complete batches,
then batch `b` up to the slot at position `k`, whose response carries an
error. -/
theorem batchLoop_abort (a : App) (m : Option Article → Option String)
    (offset count b k fuel : Nat)
    (hk : k < a.Config.length - offset)
    (hfull : ∀ b', b' < b → ∀ p ∈ batchSlots a offset, (slotResponse a b' p).ok = true)
    (hpre : ∀ p ∈ (batchSlots a offset).take k, (slotResponse a b p).ok = true)
    (hbad : ∀ p, (batchSlots a offset)[k]? = some p → (slotResponse a b p).Error ≠ none)
    (hcount : b * (a.Config.length - offset) + k < count) :
    ∃ st, batchLoop a m offset count (b + (fuel + 1)) 0 initState = some (.returned, st) ∧
      st.emitted = batchesArticles a offset b 0 ++
        ((batchSlots a offset).take k).map (slotArticle a b) ∧
      st.header = initState.header := by
  have hcnt0 : initState.articleCount = 0 := rfl
  rw [batchLoop_full_batches a m offset count b 0 (fuel + 1) initState
    (fun b' _ hb2 => hfull b' (by omega)) (by rw [hcnt0]; omega)]
  have hcnt := afterBatches_articleCount a m offset b 0 initState
  rw [hcnt0] at hcnt
  rw [batchLoop_succ _ _ _ _ _ _ _ (by rw [hcnt]; omega),
    retrieveBatch_fail a m (0 + b) offset count k _ hk
      (by simpa using hpre) (by simpa using hbad) (by rw [hcnt]; omega)]
  refine ⟨_, rfl, ?_, ?_⟩
  · simp [afterBatches_emitted, initState]
  · simp [afterBatches_header]

/-- The run of the loop when every slot yields an article: `b` complete batches,
then batch `b` up to the slot at position `k`, which brings the count to the
requested one. -/
theorem batchLoop_reach (a : App) (m : Option Article → Option String)
    (offset count b k fuel : Nat)
    (hk : k < a.Config.length - offset)
    (hfull : ∀ b', b' < b → ∀ p ∈ batchSlots a offset, (slotResponse a b' p).ok = true)
    (hpre : ∀ p ∈ (batchSlots a offset).take (k + 1), (slotResponse a b p).ok = true)
    (hcount : b * (a.Config.length - offset) + k + 1 = count) :
    ∃ st, batchLoop a m offset count (b + (fuel + 1)) 0 initState = some (.returned, st) ∧
      st.emitted = batchesArticles a offset b 0 ++
        ((batchSlots a offset).take (k + 1)).map (slotArticle a b) ∧
      st.header = initState.header := by
  have hcnt0 : initState.articleCount = 0 := rfl
  rw [batchLoop_full_batches a m offset count b 0 (fuel + 1) initState
    (fun b' _ hb2 => hfull b' (by omega)) (by rw [hcnt0]; omega)]
  have hcnt := afterBatches_articleCount a m offset b 0 initState
  rw [hcnt0] at hcnt
  have hlen : k < (batchSlots a offset).length := by simpa using hk
  rw [batchLoop_succ _ _ _ _ _ _ _ (by rw [hcnt]; omega),
    retrieveBatch_reach a m (0 + b) offset count k _ hk
      (by simpa using hpre) (by rw [hcnt]; omega)]
  simp only
  rw [batchLoop_done]
  · refine ⟨_, rfl, ?_, ?_⟩
    · simp [afterBatches_emitted, initState]
    · simp [afterBatches_header]
  · simp only [emitAll_articleCount, hcnt, List.length_map, List.length_take]
    rw [Nat.min_eq_left (by omega)]
    omega

/-! ## The order of the sources -/

theorem followsMix_append (cfgs : List ContentConfig) (xs ys : List (Option Article))
    (hx : followsMix cfgs xs) (hlen : xs.length = cfgs.length) (hy : followsMix cfgs ys) :
    followsMix cfgs (xs ++ ys) := by
  intro k hk
  by_cases hkx : k < xs.length
  · obtain ⟨art, cfg, h1, h2, h3⟩ := hx k hkx
    exact ⟨art, cfg, by rw [List.getElem?_append_left hkx]; exact h1, h2, h3⟩
  · have hge : xs.length ≤ k := Nat.le_of_not_lt hkx
    rw [List.length_append] at hk
    obtain ⟨art, cfg, h1, h2, h3⟩ := hy (k - xs.length) (by omega)
    refine ⟨art, cfg, ?_, ?_, h3⟩
    · rw [List.getElem?_append_right hge]; exact h1
    · rw [← h2, hlen, Nat.mod_eq_sub_mod (by omega)]

/-- The articles of the first `k` slots of a batch follow the mix, when each
slot contributes an article of its primary provider. -/
theorem followsMix_take (a : App) (offset b k : Nat)
    (hsrc : ∀ p ∈ batchSlots a offset,
      ∃ art, slotArticle a b p = some art ∧ art.Source = p.2.Type_) :
    followsMix (a.Config.drop offset)
      (((batchSlots a offset).take k).map (slotArticle a b)) := by
  intro i hi
  simp only [List.length_map, List.length_take, batchSlots_length] at hi
  have hiL : i < a.Config.length - offset := by omega
  have hik : i < k := by omega
  have hP : offset + i < a.Config.length := by omega
  have hslot : (batchSlots a offset)[i]? = some (offset + i, a.Config[offset + i]) := by
    rw [batchSlots_getElem?, List.getElem?_eq_getElem hP]; rfl
  have hmem : (offset + i, a.Config[offset + i]) ∈ batchSlots a offset :=
    List.getElem?_mem hslot
  obtain ⟨art, hart, hs⟩ := hsrc _ hmem
  refine ⟨art, a.Config[offset + i], ?_, ?_, hs⟩
  · rw [List.getElem?_map, List.getElem?_take_of_lt hik, hslot]
    simp [hart]
  · rw [List.length_drop, Nat.mod_eq_of_lt hiL, List.getElem?_drop,
      List.getElem?_eq_getElem hP]

theorem followsMix_batches (a : App) (offset n b0 : Nat) (rest : List (Option Article))
    (hsrc : ∀ b, ∀ p ∈ batchSlots a offset,
      ∃ art, slotArticle a b p = some art ∧ art.Source = p.2.Type_)
    (hrest : followsMix (a.Config.drop offset) rest) :
    followsMix (a.Config.drop offset) (batchesArticles a offset n b0 ++ rest) := by
  induction n generalizing b0 with
  | zero => simpa [batchesArticles] using hrest
  | succ n ih =>
    simp only [batchesArticles, List.append_assoc]
    apply followsMix_append _ _ _ _ _ (ih (b0 + 1))
    · have h := followsMix_take a offset b0 (batchSlots a offset).length (hsrc b0)
      rwa [List.take_length] at h
    · simp

/-! ## Requests on which every slot yields an article -/

theorem ok_of_primaryDelivers (a : App) (offset : Nat)
    (hall : ∀ b i cfg, a.Config[i]? = some cfg → primaryDelivers a b i cfg) (b : Nat) :
    ∀ p ∈ batchSlots a offset, (slotResponse a b p).ok = true := by
  intro p hp
  exact (slotResponse_of_primaryDelivers a b p.1 p.2
    (hall b p.1 p.2 (mem_batchSlots a offset p hp).1)).1

theorem src_of_primaryDelivers (a : App) (offset : Nat)
    (hall : ∀ b i cfg, a.Config[i]? = some cfg → primaryDelivers a b i cfg) (b : Nat) :
    ∀ p ∈ batchSlots a offset,
      ∃ art, slotArticle a b p = some art ∧ art.Source = p.2.Type_ := by
  intro p hp
  exact (slotResponse_of_primaryDelivers a b p.1 p.2
    (hall b p.1 p.2 (mem_batchSlots a offset p hp).1)).2

/-- When every primary fetch delivers and the offset lies within the mix, the
handler returns after at most `count` batches with exactly `count` articles,
whose sources go round the slots `offset .. len(Config)-1`. -/
theorem serveWindow_all_deliver (a : App) (m : Option Article → Option String)
    (offset count fuel : Nat) (hoff : offset < a.Config.length)
    (hall : ∀ b i cfg, a.Config[i]? = some cfg → primaryDelivers a b i cfg)
    (hfuel : count ≤ fuel) :
    ∃ out, serveWindow a m fuel count offset = some out ∧ out.exit = .returned ∧
      out.header = initState.header ∧
      out.emitted.length = count ∧ followsMix (a.Config.drop offset) out.emitted := by
  by_cases hc : count = 0
  · subst hc
    refine ⟨finish (.returned, initState), ?_, rfl, rfl, rfl, ?_⟩
    · simp [serveWindow, batchLoop_done, initState]
    · intro k hk; simp [finish, initState] at hk
  · have hL : 0 < a.Config.length - offset := by omega
    have hdiv := Nat.div_add_mod (count - 1) (a.Config.length - offset)
    have hmod := Nat.mod_lt (count - 1) hL
    have hb : (count - 1) / (a.Config.length - offset) ≤ count - 1 := Nat.div_le_self _ _
    have hmul : (count - 1) / (a.Config.length - offset) * (a.Config.length - offset) =
        (a.Config.length - offset) * ((count - 1) / (a.Config.length - offset)) :=
      Nat.mul_comm _ _
    obtain ⟨st, hst, hem, hhd⟩ := batchLoop_reach a m offset count
      ((count - 1) / (a.Config.length - offset)) ((count - 1) % (a.Config.length - offset))
      (fuel - (count - 1) / (a.Config.length - offset) - 1) hmod
      (fun b' _ => ok_of_primaryDelivers a offset hall b')
      (fun p hp => ok_of_primaryDelivers a offset hall _ p (List.mem_of_mem_take hp))
      (by omega)
    have hf : (count - 1) / (a.Config.length - offset) +
        (fuel - (count - 1) / (a.Config.length - offset) - 1 + 1) = fuel := by omega
    rw [hf] at hst
    refine ⟨finish (.returned, st), ?_, rfl, hhd, ?_, ?_⟩
    · simp [serveWindow, hst]
    · simp only [finish, hem, List.length_append, batchesArticles_length, List.length_map,
        List.length_take, batchSlots_length]
      rw [Nat.min_eq_left (by omega)]
      omega
    · simp only [finish, hem]
      exact followsMix_batches a offset _ 0 _ (src_of_primaryDelivers a offset hall)
        (followsMix_take a offset _ _ (src_of_primaryDelivers a offset hall _))

theorem ServeHTTP_eq (a : App) (m : Option Article → Option String) (fuel : Nat)
    (countRaw offsetRaw : String) :
    ServeHTTP a m fuel countRaw offsetRaw =
      serveWindow a m fuel (windowCount countRaw offsetRaw).toNat
        (windowOffset countRaw offsetRaw).toNat := rfl

/-- C1. A request whose offset is 0, on a non-empty mix all of whose primary
fetches succeed with an article of the slot's primary provider: the handler
returns (within `count` batches) having emitted exactly `count` articles, and
the `k`-th of them has the source `Config[k mod P].Type`. -/
theorem round_robin_from_offset_zero (a : App) (m : Option Article → Option String)
    (countRaw offsetRaw : String) (count fuel : Nat)
    (hP : a.Config ≠ [])
    (hcount : windowCount countRaw offsetRaw = (count : Int))
    (hoffset : windowOffset countRaw offsetRaw = 0)
    (hall : ∀ b i cfg, a.Config[i]? = some cfg → primaryDelivers a b i cfg)
    (hfuel : count ≤ fuel) :
    ∃ out, ServeHTTP a m fuel countRaw offsetRaw = some out ∧ out.exit = .returned ∧
      out.emitted.length = count ∧
      ∀ k, k < count →
        ∃ art cfg, out.emitted[k]? = some (some art) ∧
          a.Config[k % a.Config.length]? = some cfg ∧ art.Source = cfg.Type_ := by
  have hlen : 0 < a.Config.length := List.length_pos.2 hP
  obtain ⟨out, h1, h2, _, h4, h5⟩ := serveWindow_all_deliver a m 0 count fuel hlen hall hfuel
  refine ⟨out, ?_, h2, h4, ?_⟩
  · rw [ServeHTTP_eq, hcount, hoffset]; exact h1
  · intro k hk
    have := h5 k (by omega)
    simpa using this

theorem round_robin_from_offset_zero_witness :
    ∃ out, ServeHTTP okApp marshalArticle 10 "10" "0" = some out ∧ out.exit = .returned ∧
      out.emitted.length = 10 ∧
      ∀ k, k < 10 →
        ∃ art cfg, out.emitted[k]? = some (some art) ∧
          okApp.Config[k % okApp.Config.length]? = some cfg ∧ art.Source = cfg.Type_ :=
  round_robin_from_offset_zero okApp marshalArticle "10" "0" 10 10 (by decide) (by decide)
    (by decide) (fun _ _ _ _ => ⟨rfl, _, _, rfl, rfl⟩) (le_refl _)

/-! ## The first unrecoverable slot -/

/-- C3. Let slot `j` of batch `b` be the first unrecoverable slot in visiting
order (every slot visited before it, in the batches before `b` and ahead of `j`
in batch `b`, yields an article), and let fewer than `count` articles be emitted
before it. Then the handler returns normally, with the response header unchanged,
and the emitted stream is exactly the articles of the slots visited before slot
`j`: nothing of slot `j`, of the later slots of the batch or of a later batch. -/
theorem stream_ends_at_first_unrecoverable_slot (a : App)
    (m : Option Article → Option String) (offset count b j fuel : Nat) (cfgj : ContentConfig)
    (hoff : offset ≤ j) (hj : a.Config[j]? = some cfgj)
    (hbefore : ∀ b' i cfg, a.Config[i]? = some cfg → offset ≤ i →
      (b' < b ∨ (b' = b ∧ i < j)) → resolves a b' i cfg = true)
    (hbad : unrecoverable a b j cfgj = true)
    (hcount : b * (a.Config.length - offset) + (j - offset) < count)
    (hfuel : b < fuel) :
    ∃ out, serveWindow a m fuel count offset = some out ∧ out.exit = .returned ∧
      out.header = [("Content-Type", "application/json"), ("Status", "200")] ∧
      out.emitted = batchesArticles a offset b 0 ++
        ((batchSlots a offset).take (j - offset)).map (slotArticle a b) ∧
      out.emitted.length = b * (a.Config.length - offset) + (j - offset) := by
  have hjP : j < a.Config.length := by
    by_contra hge
    rw [List.getElem?_eq_none (Nat.le_of_not_lt hge)] at hj
    exact Option.noConfusion hj
  have hk : j - offset < a.Config.length - offset := by omega
  obtain ⟨st, hst, hem, hhd⟩ := batchLoop_abort a m offset count b (j - offset)
    (fuel - b - 1) hk
    (fun b' hb' p hp => by
      obtain ⟨h1, h2⟩ := mem_batchSlots a offset p hp
      exact slotResponse_of_resolves a b' p.1 p.2 (hbefore b' p.1 p.2 h1 h2 (Or.inl hb')))
    (fun p hp => by
      obtain ⟨h1, h2, h3⟩ := mem_take_batchSlots a offset (j - offset) p hp
      exact slotResponse_of_resolves a b p.1 p.2
        (hbefore b p.1 p.2 h1 h2 (Or.inr ⟨rfl, by omega⟩)))
    (fun p hp => by
      rw [batchSlots_getElem?] at hp
      have hoj : offset + (j - offset) = j := by omega
      rw [hoj, hj] at hp
      simp only [Option.map_some', Option.some.injEq] at hp
      subst hp
      exact slotResponse_of_unrecoverable a b j cfgj hbad)
    hcount
  have hf : b + (fuel - b - 1 + 1) = fuel := by omega
  rw [hf] at hst
  refine ⟨finish (.returned, st), ?_, rfl, hhd, hem, ?_⟩
  · simp [serveWindow, hst]
  · simp only [finish, hem, List.length_append, batchesArticles_length, List.length_map,
      List.length_take, batchSlots_length]
    rw [Nat.min_eq_left (by omega)]

theorem stream_ends_at_first_unrecoverable_slot_witness :
    ∃ out, serveWindow errApp marshalArticle 1 16 0 = some out ∧ out.exit = .returned ∧
      out.header = [("Content-Type", "application/json"), ("Status", "200")] ∧
      out.emitted = batchesArticles errApp 0 0 0 ++
        ((batchSlots errApp 0).take (4 - 0)).map (slotArticle errApp 0) ∧
      out.emitted.length = 0 * (errApp.Config.length - 0) + (4 - 0) :=
  stream_ends_at_first_unrecoverable_slot errApp marshalArticle 0 16 0 4 1 config4
    (by decide) (by decide)
    (fun b' i cfg hc _ h => by
      rcases h with h | ⟨rfl, hi⟩
      · exact absurd h (Nat.not_lt_zero _)
      · interval_cases i <;> simp [errApp, sampleMix] at hc <;> subst hc <;> decide)
    (by decide) (by decide) (by decide)

/-! ## Termination of the loop -/

theorem joinLoop_mono (m : Option Article → Option String) (count : Nat)
    (vals : List Response) (st : ServeState) :
    st.articleCount ≤ (joinLoop m count vals st).2.articleCount ∧
      st.emitted.length ≤ (joinLoop m count vals st).2.emitted.length := by
  induction vals generalizing st with
  | nil => simp [joinLoop]
  | cons v rest ih =>
    cases he : v.Error with
    | some e => simp [joinLoop, he]
    | none =>
      cases hc : v.Content with
      | nil => simp [joinLoop, he, hc, writeComma]
      | cons art tl =>
        simp only [joinLoop, he, hc]
        split
        · simp [marshalAndWrite, writeComma]
        · have := ih (marshalAndWrite m art (writeComma st))
          simp only [marshalAndWrite, writeComma, List.length_append, List.length_singleton]
            at this ⊢
          omega

/-- A join loop over at least one response that returns nil has emitted at least
one article. -/
theorem joinLoop_progress (m : Option Article → Option String) (count : Nat)
    (vals : List Response) (st st1 : ServeState) (hne : vals ≠ [])
    (h : joinLoop m count vals st = (.retNil, st1)) :
    st.articleCount < st1.articleCount ∧ st.emitted.length < st1.emitted.length := by
  cases vals with
  | nil => exact absurd rfl hne
  | cons v rest =>
    cases he : v.Error with
    | some e => simp [joinLoop, he] at h
    | none =>
      cases hc : v.Content with
      | nil => simp [joinLoop, he, hc] at h
      | cons art tl =>
        simp only [joinLoop, he, hc] at h
        split at h
        · simp only [Prod.mk.injEq, true_and] at h
          subst h
          simp [marshalAndWrite, writeComma]
        · have hm := joinLoop_mono m count rest (marshalAndWrite m art (writeComma st))
          rw [h] at hm
          simp only [marshalAndWrite, writeComma, List.length_append, List.length_singleton]
            at hm
          omega

theorem retrieveBatch_progress (a : App) (m : Option Article → Option String)
    (batch offset count : Nat) (st st1 : ServeState) (hoff : offset < a.Config.length)
    (h : retrieveBatch a m batch offset count st = (.retNil, st1)) :
    st.articleCount < st1.articleCount ∧ st.emitted.length < st1.emitted.length := by
  rw [retrieveBatch_eq] at h
  have hne : batchResponses a batch offset ≠ [] := by
    intro hnil
    have := congrArg List.length hnil
    simp [batchResponses] at this
    omega
  exact joinLoop_progress m count _
    { st with calls := st.calls ++ batchCalls a batch offset } st1 hne h

/-- With the offset inside the mix, `count` rounds are enough for the loop. -/
theorem batchLoop_terminates (a : App) (m : Option Article → Option String)
    (offset count : Nat) (hoff : offset < a.Config.length) (fuel batch : Nat)
    (st : ServeState) (hfuel : count - st.articleCount ≤ fuel) :
    batchLoop a m offset count fuel batch st ≠ none := by
  induction fuel generalizing batch st with
  | zero =>
    rw [batchLoop_done _ _ _ _ _ _ _ (by omega)]
    exact Option.some_ne_none _
  | succ f ih =>
    by_cases hlt : st.articleCount < count
    · rw [batchLoop_succ _ _ _ _ _ _ _ hlt]
      rcases hr : retrieveBatch a m batch offset count st with ⟨e, st1⟩
      cases e with
      | retNil =>
        simp only
        have hp := retrieveBatch_progress a m batch offset count st st1 hoff hr
        exact ih (batch + 1) st1 (by omega)
      | retErr => simp
      | outOfRange => simp
    · rw [batchLoop_done _ _ _ _ _ _ _ hlt]
      exact Option.some_ne_none _

/-- With the offset at or beyond the end of the mix a batch visits no slot. -/
theorem retrieveBatch_beyond (a : App) (m : Option Article → Option String)
    (batch offset count : Nat) (st : ServeState) (hoff : a.Config.length ≤ offset) :
    retrieveBatch a m batch offset count st = (.retNil, st) := by
  simp [retrieveBatch, batchSlots_of_le a offset hoff, joinLoop]

theorem batchLoop_beyond (a : App) (m : Option Article → Option String)
    (offset count : Nat) (hoff : a.Config.length ≤ offset) (fuel batch : Nat)
    (st : ServeState) (hlt : st.articleCount < count) :
    batchLoop a m offset count fuel batch st = none := by
  induction fuel generalizing batch with
  | zero => exact batchLoop_zero _ _ _ _ _ _ hlt
  | succ f ih =>
    rw [batchLoop_succ _ _ _ _ _ _ _ hlt, retrieveBatch_beyond a m batch offset count st hoff]
    exact ih (batch + 1)

theorem serveWindow_beyond (a : App) (m : Option Article → Option String)
    (fuel count offset : Nat) (hoff : a.Config.length ≤ offset) (hc : 0 < count) :
    serveWindow a m fuel count offset = none := by
  simp [serveWindow, batchLoop_beyond a m offset count hoff fuel 0 initState (by simpa [initState] using hc)]

theorem serveWindow_count_zero (a : App) (m : Option Article → Option String)
    (fuel offset : Nat) :
    serveWindow a m fuel 0 offset =
      some { exit := .returned,
             header := [("Content-Type", "application/json"), ("Status", "200")],
             body := "[]", emitted := [], calls := [] } := by
  simp [serveWindow, batchLoop_done, initState, finish]

/-- C10. For a non-empty mix and a window `(offset, count)`, whatever the
providers answer, the loop of `ServeHTTP` comes to an end if and only if
`count = 0` or `offset < P`. With `offset < P` a call of `retrieveBatch` that
returns nil has emitted at least one article, and `count` rounds are enough; with
`offset >= P` a call of `retrieveBatch` issues no fetch, emits nothing and
returns nil (the state is unchanged), so with `count > 0` the loop is never
left. -/
theorem loop_ends_iff_count_zero_or_offset_inside (a : App)
    (m : Option Article → Option String) (count offset : Nat) (hP : a.Config ≠ []) :
    ((∃ fuel, serveWindow a m fuel count offset ≠ none) ↔
        (count = 0 ∨ offset < a.Config.length)) ∧
    (offset < a.Config.length →
      (∀ batch st st1, retrieveBatch a m batch offset count st = (.retNil, st1) →
        st.articleCount < st1.articleCount ∧ st.emitted.length < st1.emitted.length) ∧
      serveWindow a m count count offset ≠ none) ∧
    (a.Config.length ≤ offset →
      (∀ batch st, retrieveBatch a m batch offset count st = (.retNil, st)) ∧
      (0 < count → ∀ fuel, serveWindow a m fuel count offset = none)) := by
  have hlen : 0 < a.Config.length := List.length_pos.2 hP
  have hterm : offset < a.Config.length → serveWindow a m count count offset ≠ none := by
    intro hoff
    have := batchLoop_terminates a m offset count hoff count 0 initState (by simp)
    simpa [serveWindow] using this
  refine ⟨⟨?_, ?_⟩, ?_, ?_⟩
  · rintro ⟨fuel, hfuel⟩
    by_contra hcon
    simp only [not_or, not_lt] at hcon
    exact hfuel (serveWindow_beyond a m fuel count offset hcon.2 (Nat.pos_of_ne_zero hcon.1))
  · rintro (rfl | hoff)
    · exact ⟨0, by rw [serveWindow_count_zero]; exact Option.some_ne_none _⟩
    · exact ⟨count, hterm hoff⟩
  · intro hoff
    exact ⟨fun batch st st1 h => retrieveBatch_progress a m batch offset count st st1 hoff h,
      hterm hoff⟩
  · intro hoff
    exact ⟨fun batch st => retrieveBatch_beyond a m batch offset count st hoff,
      fun hc fuel => serveWindow_beyond a m fuel count offset hoff hc⟩

theorem loop_ends_iff_count_zero_or_offset_inside_witness :
    ((∃ fuel, serveWindow errApp marshalArticle fuel 16 8 ≠ none) ↔
        (16 = 0 ∨ 8 < errApp.Config.length)) ∧
    (8 < errApp.Config.length →
      (∀ batch st st1, retrieveBatch errApp marshalArticle batch 8 16 st = (.retNil, st1) →
        st.articleCount < st1.articleCount ∧ st.emitted.length < st1.emitted.length) ∧
      serveWindow errApp marshalArticle 16 16 8 ≠ none) ∧
    (errApp.Config.length ≤ 8 →
      (∀ batch st, retrieveBatch errApp marshalArticle batch 8 16 st = (.retNil, st)) ∧
      (0 < 16 → ∀ fuel, serveWindow errApp marshalArticle fuel 16 8 = none)) :=
  loop_ends_iff_count_zero_or_offset_inside errApp marshalArticle 16 8 (by decide)

/-! ## The bytes of the response -/

theorem intercalate_go_snoc (sep acc e : String) (xs : List String) :
    String.intercalate.go acc sep (xs ++ [e]) = String.intercalate.go acc sep xs ++ sep ++ e := by
  induction xs generalizing acc with
  | nil => simp [String.intercalate.go]
  | cons x xs ih => simp [String.intercalate.go, ih]

theorem intercalate_snoc (sep e : String) (xs : List String) (hne : xs ≠ []) :
    sep.intercalate (xs ++ [e]) = sep.intercalate xs ++ sep ++ e := by
  cases xs with
  | nil => exact absurd rfl hne
  | cons x xs => simp [String.intercalate, intercalate_go_snoc]

theorem Framed_step (m : Option Article → Option String) (art : Option Article)
    (st : ServeState) (h : Framed m st) : Framed m (marshalAndWrite m art (writeComma st)) := by
  obtain ⟨hb, hc⟩ := h
  constructor
  · cases hem : st.emitted with
    | nil =>
      rw [hem] at hb hc
      simp only [List.isEmpty_nil, Bool.not_true] at hc
      simp only [marshalAndWrite, writeComma, hc, hb, hem, encodings]
      simp [String.intercalate, String.intercalate.go]
    | cons x xs =>
      rw [hem] at hb hc
      simp only [List.isEmpty_cons, Bool.not_false] at hc
      have hne : encodings m (x :: xs) ≠ [] := by simp [encodings]
      have hsn : encodings m (x :: xs ++ [art]) = encodings m (x :: xs) ++ [(m art).getD ""] := by
        simp [encodings]
      simp only [marshalAndWrite, writeComma, hc, hb, hem, if_true]
      rw [hsn, intercalate_snoc _ _ _ hne]
      simp [String.append_assoc]
  · simp [marshalAndWrite, writeComma]

theorem joinLoop_framed (m : Option Article → Option String) (count : Nat)
    (vals : List Response) (st : ServeState) (h : Framed m st)
    (hexit : (joinLoop m count vals st).1 ≠ .outOfRange) :
    Framed m (joinLoop m count vals st).2 := by
  induction vals generalizing st with
  | nil => simpa [joinLoop] using h
  | cons v rest ih =>
    cases he : v.Error with
    | some e => simpa [joinLoop, he] using h
    | none =>
      cases hc : v.Content with
      | nil => simp [joinLoop, he, hc] at hexit
      | cons art tl =>
        simp only [joinLoop, he, hc] at hexit ⊢
        split
        · exact Framed_step m art st h
        · rename_i hne
          rw [if_neg hne] at hexit
          exact ih _ (Framed_step m art st h) hexit

theorem retrieveBatch_framed (a : App) (m : Option Article → Option String)
    (batch offset count : Nat) (st : ServeState) (h : Framed m st)
    (hexit : (retrieveBatch a m batch offset count st).1 ≠ .outOfRange) :
    Framed m (retrieveBatch a m batch offset count st).2 := by
  rw [retrieveBatch_eq] at hexit ⊢
  exact joinLoop_framed m count _ _ h hexit

theorem batchLoop_framed (a : App) (m : Option Article → Option String)
    (offset count fuel batch : Nat) (st st1 : ServeState) (h : Framed m st)
    (hres : batchLoop a m offset count fuel batch st = some (.returned, st1)) :
    Framed m st1 := by
  induction fuel generalizing batch st with
  | zero =>
    by_cases hlt : st.articleCount < count
    · rw [batchLoop_zero _ _ _ _ _ _ hlt] at hres
      exact Option.noConfusion hres
    · rw [batchLoop_done _ _ _ _ _ _ _ hlt] at hres
      simp only [Option.some.injEq, Prod.mk.injEq, true_and] at hres
      exact hres ▸ h
  | succ f ih =>
    by_cases hlt : st.articleCount < count
    · rw [batchLoop_succ _ _ _ _ _ _ _ hlt] at hres
      have hfr := retrieveBatch_framed a m batch offset count st h
      rcases hr : retrieveBatch a m batch offset count st with ⟨e, st2⟩
      rw [hr] at hres hfr
      cases e with
      | retNil => exact ih (batch + 1) st2 (hfr (by simp)) hres
      | retErr =>
        simp only [Option.some.injEq, Prod.mk.injEq, true_and] at hres
        exact hres ▸ hfr (by simp)
      | outOfRange => simp at hres
    · rw [batchLoop_done _ _ _ _ _ _ _ hlt] at hres
      simp only [Option.some.injEq, Prod.mk.injEq, true_and] at hres
      exact hres ▸ h

theorem Framed_initState (m : Option Article → Option String) : Framed m initState := by
  constructor <;> rfl

theorem encodings_forall₂ (m : Option Article → Option String) (arts : List (Option Article))
    (h : ∀ art ∈ arts, (m art).isSome = true) :
    List.Forall₂ (fun art e => m art = some e) arts (encodings m arts) := by
  induction arts with
  | nil => exact List.Forall₂.nil
  | cons x xs ih =>
    have hx := h x (by simp)
    have hxs : ∀ art ∈ xs, (m art).isSome = true := fun y hy => h y (by simp [hy])
    simp only [encodings, List.map_cons]
    refine List.Forall₂.cons ?_ (ih hxs)
    cases hm : m x with
    | none => simp [hm] at hx
    | some e => simp

/-- C8, as amended. On every request on which the handler returns, the body is
`[`, then for each emitted article in emission order the bytes that
`json.Marshal` gave for it (none when marshalling it failed) with a single comma
between neighbours, then `]`, whichever way the loop was left. Hence, when every
emitted article is marshalled, the body is `[`, the encodings of the emitted
articles separated by single commas, and `]`. -/
theorem body_is_bracketed_comma_separated (a : App) (m : Option Article → Option String)
    (fuel : Nat) (countRaw offsetRaw : String) (out : Outcome)
    (hres : ServeHTTP a m fuel countRaw offsetRaw = some out)
    (hret : out.exit = .returned) :
    out.body = "[" ++ ",".intercalate (encodings m out.emitted) ++ "]" ∧
    ((∀ art ∈ out.emitted, (m art).isSome = true) →
      ∃ encs, List.Forall₂ (fun art e => m art = some e) out.emitted encs ∧
        out.body = "[" ++ ",".intercalate encs ++ "]") := by
  simp only [ServeHTTP, serveWindow, Option.map_eq_some'] at hres
  obtain ⟨⟨e, st⟩, hloop, hfin⟩ := hres
  subst hfin
  simp only [finish] at hret ⊢
  subst hret
  have hfr := batchLoop_framed a m _ _ fuel 0 initState st (Framed_initState m) hloop
  refine ⟨by rw [hfr.1], fun hall => ⟨encodings m st.emitted, encodings_forall₂ m _ hall, ?_⟩⟩
  rw [hfr.1]

theorem body_is_bracketed_comma_separated_witness :
    ∃ out, ServeHTTP twoSlotApp marshalArticle 2 "2" "1" = some out ∧
      out.exit = .returned ∧
      out.body = "[\x7b\"id\":\"1\",\"source\":\"2\"\x7d,\x7b\"id\":\"9\",\"source\":\"2\"\x7d]" ∧
      out.body = "[" ++ ",".intercalate (encodings marshalArticle out.emitted) ++ "]" :=
  ⟨_, rfl, rfl, by decide,
    (body_is_bracketed_comma_separated twoSlotApp marshalArticle 2 "2" "1" _ rfl rfl).1⟩

/-- C8 as stated fails when an article cannot be marshalled. The first article of
this request expires in the year 10000: `json.Marshal` returns an error for it,
`marshalAndWrite` writes no byte, and the comma of the second article follows the
opening bracket. Two articles are emitted, and the body is not made of their
encodings. -/
theorem body_leading_comma_when_marshal_fails :
    ∃ out, ServeHTTP farFutureApp marshalArticle 1 "2" "0" = some out ∧
      out.exit = .returned ∧ out.emitted.length = 2 ∧
      out.body = "[,\x7b\"id\":\"1\",\"source\":\"2\"\x7d]" ∧
      ¬ ∃ encs, List.Forall₂ (fun art e => marshalArticle art = some e) out.emitted encs ∧
        out.body = "[" ++ ",".intercalate encs ++ "]" := by
  refine ⟨_, rfl, rfl, rfl, by decide, ?_⟩
  rintro ⟨encs, hall, -⟩
  have hlen := hall.length_eq
  cases hall with
  | cons h _ => exact Option.noConfusion h

/-! ## Requests with count 0, the empty mix, the reported error, the offset -/

theorem windowCount_eq (countRaw offsetRaw : String) :
    windowCount countRaw offsetRaw =
      if (Atoi countRaw).1 < 0 then 0 else (Atoi countRaw).1 := by
  simp only [windowCount, getURLParams]
  split <;> rfl

theorem windowOffset_eq (countRaw offsetRaw : String) :
    windowOffset countRaw offsetRaw =
      if (Atoi offsetRaw).1 < 0 then 0 else (Atoi offsetRaw).1 := by
  simp only [windowOffset, getURLParams]
  split <;> rfl

/-- C5. A request whose normalized count is 0 returns with the body `[]`, no
article emitted and no `GetContent` call made, for every server, offset and
behaviour of the providers and however many rounds the loop is allowed. The count
is normalized to 0 when the parameter is `0`, is a negative number, is missing,
or is not numeric (the digits ahead of its first other character fitting 64
bits). -/
theorem zero_count_gives_empty_array :
    (∀ (a : App) (m : Option Article → Option String) (fuel : Nat)
        (countRaw offsetRaw : String), windowCount countRaw offsetRaw = 0 →
        ServeHTTP a m fuel countRaw offsetRaw =
          some { exit := .returned,
                 header := [("Content-Type", "application/json"), ("Status", "200")],
                 body := "[]", emitted := [], calls := [] }) ∧
    (∀ offsetRaw, windowCount "0" offsetRaw = 0) ∧
    (∀ ds offsetRaw, isDigits ds = true → windowCount (String.mk ('-' :: ds)) offsetRaw = 0) ∧
    (∀ offsetRaw, windowCount "" offsetRaw = 0) ∧
    (∀ (s : String) offsetRaw, isNumeric s.data = false →
        digitsValue (leadingDigits s.data) ≤ maxUint64 → windowCount s offsetRaw = 0) := by
  refine ⟨?_, ?_, ?_, ?_, ?_⟩
  · intro a m fuel countRaw offsetRaw h
    rw [ServeHTTP_eq, h]
    exact serveWindow_count_zero a m fuel _
  · intro o; rw [windowCount_eq]; rfl
  · intro ds o hd
    rw [windowCount_eq]
    have := ParseInt_minus ds hd
    simp only [Atoi]
    split
    · rfl
    · omega
  · intro o; rw [windowCount_eq]; rfl
  · intro s o hs hv
    rw [windowCount_eq]
    simp [Atoi, ParseInt_malformed s.data hs hv]

theorem zero_count_gives_empty_array_witness :
    ServeHTTP okApp marshalArticle 0 "-10" "-5" =
      some { exit := .returned,
             header := [("Content-Type", "application/json"), ("Status", "200")],
             body := "[]", emitted := [], calls := [] } ∧
    windowCount (String.mk ('-' :: ['1', '0'])) "0" = 0 ∧
    windowCount "count" "0" = 0 :=
  ⟨zero_count_gives_empty_array.1 okApp marshalArticle 0 "-10" "-5" (by decide),
   zero_count_gives_empty_array.2.2.1 ['1', '0'] "0" (by decide),
   zero_count_gives_empty_array.2.2.2.2 "count" "0" (by decide) (by decide)⟩

/-- C7, on the code. With an empty mix and the request `count=1&offset=0` (and
with any positive count and any offset) the handler is still in its loop after
any number of rounds: every batch visits no slot and returns nil. -/
theorem empty_mix_positive_count_never_returns :
    (∀ (clients : Provider → Client) (m : Option Article → Option String) (fuel : Nat),
      ServeHTTP { ContentClients := clients, Config := [] } m fuel "1" "0" = none) ∧
    (∀ (clients : Provider → Client) (m : Option Article → Option String)
        (fuel count offset : Nat),
      serveWindow { ContentClients := clients, Config := [] } m fuel (count + 1) offset =
        none) := by
  constructor
  · intro clients m fuel
    rw [ServeHTTP_eq]
    exact serveWindow_beyond _ m fuel _ _ (by simp) (by decide)
  · intro clients m fuel count offset
    exact serveWindow_beyond _ m fuel _ _ (by simp) (by omega)

/-- C9, on the code. The error of the count parameter does not reach the caller
of `getURLParams`: with a well-formed offset the returned error is nil whatever
the count parameter is, a negative and a non-numeric one included. -/
theorem count_error_is_overwritten :
    (∀ countRaw : String, (getURLParams countRaw "0").2.2 = none) ∧
    getURLParams "-10" "0" = (0, 0, none) ∧
    getURLParams "ten" "0" = (0, 0, none) := by
  refine ⟨?_, by decide, by decide⟩
  intro c
  simp only [getURLParams]
  rfl

/-- C2, on the code. Two slots with providers 1 and 2, no fetch failing, request
`count=3&offset=1`: the three articles all come from slot 1 (provider 2), where
`Config[(offset + k) mod P]` names the providers 2, 1, 2. The second batch starts
at the offset again, not at slot 0. -/
theorem later_batches_restart_at_offset :
    (ServeHTTP twoSlotApp marshalArticle 3 "3" "1").map
        (fun out => (out.exit, out.emitted.map (Option.map Article.Source))) =
      some (.returned, [some "2", some "2", some "2"]) ∧
    (List.range 3).map
        (fun k => (twoSlotApp.Config[(1 + k) % twoSlotApp.Config.length]?).map
          ContentConfig.Type_) =
      [some "2", some "1", some "2"] := by
  constructor <;> decide

/-! ## The fallback of a slot -/

/-- C4. For a slot `cfg = Config[idx]` visited in a batch: if the primary fetch
succeeds, the slot's response is the primary's content and the only call is the
one to the primary (the fallback is not called); if it fails and a fallback `fb`
is set, exactly one more call is made, `GetContent("Test", 1)` on `fb`, as for the
primary, and the response carries the content and the error of that call, no
further provider being tried: when the fallback succeeds with an article the join
loop emits that article and goes on with the next slot, when it fails the join
loop returns the error with nothing emitted for the slot; if the primary fails
and no fallback is set the response carries an error. -/
theorem fallback_is_single_level (a : App) (batch idx : Nat) (cfg : ContentConfig) :
    ((primaryFetch a batch idx cfg).err = none →
      retrieveContent a batch idx cfg =
        (⟨(primaryFetch a batch idx cfg).content, none⟩, [⟨cfg.Type_, "Test", 1⟩])) ∧
    (∀ fb, (primaryFetch a batch idx cfg).err ≠ none → cfg.Fallback = some fb →
      retrieveContent a batch idx cfg =
        (⟨(fallbackFetch a batch idx fb).content, (fallbackFetch a batch idx fb).err⟩,
          [⟨cfg.Type_, "Test", 1⟩, ⟨fb, "Test", 1⟩])) ∧
    ((primaryFetch a batch idx cfg).err ≠ none → cfg.Fallback = none →
      retrieveContent a batch idx cfg =
        (⟨[], some "no fallback found"⟩, [⟨cfg.Type_, "Test", 1⟩])) ∧
    (∀ fb art tl (m : Option Article → Option String) (count : Nat) (rest : List Response)
        (st : ServeState),
      (primaryFetch a batch idx cfg).err ≠ none → cfg.Fallback = some fb →
      fallbackFetch a batch idx fb = ⟨art :: tl, none⟩ →
      (marshalAndWrite m art (writeComma st)).emitted = st.emitted ++ [art] ∧
      (st.articleCount + 1 ≠ count →
        joinLoop m count (slotResponse a batch (idx, cfg) :: rest) st =
          joinLoop m count rest (marshalAndWrite m art (writeComma st)))) ∧
    (∀ fb (m : Option Article → Option String) (count : Nat) (rest : List Response)
        (st : ServeState),
      (primaryFetch a batch idx cfg).err ≠ none → cfg.Fallback = some fb →
      (fallbackFetch a batch idx fb).err ≠ none →
      joinLoop m count (slotResponse a batch (idx, cfg) :: rest) st = (.retErr, st)) := by
  have hfb : ∀ fb, (primaryFetch a batch idx cfg).err ≠ none → cfg.Fallback = some fb →
      retrieveContent a batch idx cfg =
        (⟨(fallbackFetch a batch idx fb).content, (fallbackFetch a batch idx fb).err⟩,
          [⟨cfg.Type_, "Test", 1⟩, ⟨fb, "Test", 1⟩]) := by
    intro fb he hf
    unfold primaryFetch at he
    cases he2 : (a.ContentClients cfg.Type_ ⟨batch, idx, false⟩ "Test" 1).err with
    | none => exact absurd he2 he
    | some e => simp [retrieveContent, he2, hf, fallbackFetch]
  refine ⟨?_, hfb, ?_, ?_, ?_⟩
  · intro he
    unfold primaryFetch at he
    simp [retrieveContent, he, primaryFetch]
  · intro he hf
    unfold primaryFetch at he
    cases he2 : (a.ContentClients cfg.Type_ ⟨batch, idx, false⟩ "Test" 1).err with
    | none => exact absurd he2 he
    | some e => simp [retrieveContent, he2, hf]
  · intro fb art tl m count rest st he hf hfetch
    refine ⟨by simp [marshalAndWrite, writeComma], fun hne => ?_⟩
    have hresp : slotResponse a batch (idx, cfg) = ⟨art :: tl, none⟩ := by
      simp [slotResponse, hfb fb he hf, hfetch]
    rw [hresp]
    simp [joinLoop, marshalAndWrite, writeComma, hne]
  · intro fb m count rest st he hf hferr
    have hresp : (slotResponse a batch (idx, cfg)).Error ≠ none := by
      simpa [slotResponse, hfb fb he hf] using hferr
    exact joinLoop_err_cons m count _ rest st hresp

theorem fallback_is_single_level_witness :
    retrieveContent errApp 0 0 config1 =
      (⟨(fallbackFetch errApp 0 0 "2").content, (fallbackFetch errApp 0 0 "2").err⟩,
        [⟨"1", "Test", 1⟩, ⟨"2", "Test", 1⟩]) ∧
    retrieveContent okApp 0 0 config1 =
      (⟨(primaryFetch okApp 0 0 config1).content, none⟩, [⟨"1", "Test", 1⟩]) ∧
    retrieveContent errApp 0 4 config4 =
      (⟨[], some "no fallback found"⟩, [⟨"1", "Test", 1⟩]) ∧
    retrieveContent allErrApp 0 0 config1 =
      (⟨[], some "error :("⟩, [⟨"1", "Test", 1⟩, ⟨"2", "Test", 1⟩]) :=
  ⟨(fallback_is_single_level errApp 0 0 config1).2.1 "2" (by decide) rfl,
   (fallback_is_single_level okApp 0 0 config1).1 rfl,
   (fallback_is_single_level errApp 0 4 config4).2.2.1 (by decide) rfl,
   (fallback_is_single_level allErrApp 0 0 config1).2.1 "2" (by decide) rfl⟩

/-! ## Normalization of the window -/

/-- What `getURLParams` returns, case by case, as the code stands. The count and
the offset are never negative. A non-negative number that fits Go's `int` is
returned unchanged; a negative number is returned as 0; a value that is missing
or not numeric is returned as 0 when the digits ahead of its first other
character fit 64 bits. A non-negative number beyond the range of `int` is
returned as 2^63 - 1 although `strconv.Atoi` reports an error for it. A request
with a negative offset has the response of the same request with offset 0. -/
theorem getURLParams_by_cases :
    (∀ c o : String, 0 ≤ windowCount c o ∧ 0 ≤ windowOffset c o) ∧
    (∀ s other : String, isNumeric s.data = true → s.data.head? ≠ some '-' →
      (digitsValue (unsigned s.data) : Int) ≤ maxInt64 →
      windowCount s other = (digitsValue (unsigned s.data) : Int) ∧
        windowOffset other s = (digitsValue (unsigned s.data) : Int)) ∧
    (∀ s other : String, isNumeric s.data = true → s.data.head? ≠ some '-' →
      maxInt64 < (digitsValue (unsigned s.data) : Int) →
      windowCount s other = maxInt64 ∧ windowOffset other s = maxInt64) ∧
    (∀ (ds : List Char) (other : String), isDigits ds = true →
      windowCount (String.mk ('-' :: ds)) other = 0 ∧
        windowOffset other (String.mk ('-' :: ds)) = 0) ∧
    (∀ s other : String, isNumeric s.data = false →
      digitsValue (leadingDigits s.data) ≤ maxUint64 →
      windowCount s other = 0 ∧ windowOffset other s = 0) ∧
    (∀ (a : App) (m : Option Article → Option String) (fuel : Nat) (c : String)
        (ds : List Char), isDigits ds = true →
      ServeHTTP a m fuel c (String.mk ('-' :: ds)) = ServeHTTP a m fuel c "0") ∧
    (∀ (a : App) (m : Option Article → Option String), a.Config ≠ [] →
      (∀ b i cfg, a.Config[i]? = some cfg → primaryDelivers a b i cfg) →
      ∃ out, ServeHTTP a m 10 "10" "-5" = some out ∧ out.exit = .returned ∧
        out.emitted.length = 10) := by
  have hneg : ∀ (ds : List Char) (other : String), isDigits ds = true →
      windowCount (String.mk ('-' :: ds)) other = 0 ∧
        windowOffset other (String.mk ('-' :: ds)) = 0 := by
    intro ds other hd
    have := ParseInt_minus ds hd
    rw [windowCount_eq, windowOffset_eq]
    simp only [Atoi]
    constructor <;> (split; rfl; omega)
  refine ⟨?_, ?_, ?_, hneg, ?_, ?_, ?_⟩
  · intro c o
    rw [windowCount_eq, windowOffset_eq]
    constructor <;> (split <;> omega)
  · intro s other hs hh hv
    have hp := ParseInt_nonneg s.data hs hh hv
    rw [windowCount_eq, windowOffset_eq]
    simp only [Atoi, hp]
    constructor <;> (split; omega; rfl)
  · intro s other hs hh hv
    have hp := ParseInt_large s.data hs hh hv
    rw [windowCount_eq, windowOffset_eq]
    simp only [Atoi, hp]
    constructor <;> (split <;> simp_all [maxInt64])
  · intro s other hs hv
    rw [windowCount_eq, windowOffset_eq]
    simp [Atoi, ParseInt_malformed s.data hs hv]
  · intro a m fuel c ds hd
    have h1 := (hneg ds c hd).2
    have h0 : windowOffset c "0" = 0 := by rw [windowOffset_eq]; rfl
    have hc : windowCount c (String.mk ('-' :: ds)) = windowCount c "0" := by
      rw [windowCount_eq, windowCount_eq]
    rw [ServeHTTP_eq, ServeHTTP_eq, h1, h0, hc]
  · intro a m hP hall
    have hlen : 0 < a.Config.length := List.length_pos.2 hP
    obtain ⟨out, h1, h2, _, h4, _⟩ := serveWindow_all_deliver a m 0 10 10 hlen hall (le_refl _)
    exact ⟨out, h1, h2, h4⟩

/-- C6, on the code. A value on which `strconv.Atoi` reports a range error is not
defaulted to 0, as the comment in `ServeHTTP` says of a value with an error and
as the code does for a negative and for a non-numeric value, and it is not
returned unchanged either. The offset `9223372036854775808`, a well-formed
non-negative integer, is returned as `9223372036854775807` together with the
range error; the same count is returned as `9223372036854775807`; and the count
`99999999999999999999x`, which is not numeric, is returned as
`9223372036854775807`, because `strconv.ParseUint` reports the overflow before
it reaches the `x`. -/
theorem out_of_range_value_is_kept :
    getURLParams "0" "9223372036854775808" =
      (0, 9223372036854775807, some (.num .ErrRange)) ∧
    isNumeric "9223372036854775808".data = true ∧
    digitsValue (unsigned "9223372036854775808".data) = 9223372036854775808 ∧
    windowOffset "0" "9223372036854775808" ≠
      (digitsValue (unsigned "9223372036854775808".data) : Int) ∧
    windowOffset "0" "9223372036854775808" ≠ 0 ∧
    windowCount "9223372036854775808" "0" = 9223372036854775807 ∧
    isNumeric "99999999999999999999x".data = false ∧
    windowCount "99999999999999999999x" "0" = 9223372036854775807 ∧
    windowCount "99999999999999999999x" "0" ≠ 0 := by
  refine ⟨by decide, by decide, by decide, by decide, by decide, by decide, by decide,
    by decide, by decide⟩

end Feed
